import Mathlib

/-!
Shallow embedding of `src/training/graph_group_sync.h` (class `SyncGraphGroup`).

Device-resident flat tensors of floats are modelled as `List ℚ` (exact
arithmetic in place of IEEE floats).  External collaborators (model builder,
optimizer, scheduler, batch) are modelled as oracles passed to the step
function.  Stateful C++ methods become pure state-transformers on `Group`;
the two thread-pool phases are modelled as sequential folds, which is
faithful because the tasks of a phase write disjoint state (each compute
task owns its replica, each reduction task owns its shard and a disjoint
slice of every replica's buffer).
-/

namespace Marian

/-- `t->subtensor(pos, size)`: the slice `[pos, pos+size)` of a flat buffer. -/
def subtensor (b : List ℚ) (pos size : ℕ) : List ℚ := (b.drop pos).take size

/-- `t->subtensor(pos, v.size())->copyFrom(v)`: overwrite the slice of `b`
starting at `pos` with `v`. -/
def writeSlice (b : List ℚ) (pos : ℕ) (v : List ℚ) : List ℚ :=
  b.take pos ++ v ++ b.drop (pos + v.length)

/-- Total number of scalars in a list of shard buffers. -/
def totalLen (ps : List (List ℚ)) : ℕ := (ps.map List.length).sum

/-- Write a sequence of slices back-to-back, each slice advancing the write
position by its own length (the broadcast loop's `pos += params_[idx]->size()`). -/
def writeSeq : List ℚ → ℕ → List (List ℚ) → List ℚ
  | b, _, [] => b
  | b, pos, v :: vs => writeSeq (writeSlice b pos v) (pos + v.length) vs

/-- `Element(_1 += _2, grads, tmp)`: element-wise sum of two equal-size buffers. -/
def addVec (a b : List ℚ) : List ℚ := List.zipWith (fun x y => x + y) a b

/-- `ceil(totalSize / (float)devices_.size())` over exact arithmetic. -/
def ceilDiv (a b : ℕ) : ℕ := (a + b - 1) / b

/-- The shard-allocation loop of `SyncGraphGroup::execute` (first step):
for each of `n` devices, `__size__ = min(shardSize_, totalSize)`, the shard
covers `[pos, pos+__size__)`, then `pos += __size__; totalSize -= __size__`. -/
def mkShards (shardSize : ℕ) : ℕ → ℕ → ℕ → List (ℕ × ℕ)
  | 0, _, _ => []
  | n + 1, pos, rem =>
    let s := min shardSize rem
    (pos, s) :: mkShards shardSize n (pos + s) (rem - s)

/-- The shard table for total parameter count `T` and device count `N`. -/
def shardTable (T N : ℕ) : List (ℕ × ℕ) := mkShards (ceilDiv T N) N 0 T

/-- Number of shard ranges of `L` containing index `i`. -/
def coverCount (L : List (ℕ × ℕ)) (i : ℕ) : ℕ :=
  (L.filter (fun r => decide (r.1 ≤ i ∧ i < r.1 + r.2))).length

/-- The scheduler collaborator, as observed by `SyncGraphGroup` during one
step: `numberOfBatches()`, and the answers of `saving()` / `validating()`
polled after `update(cost, batch)`. -/
structure Sched where
  numberOfBatches : ℕ
  savingFlag : Bool
  validatingFlag : Bool
deriving DecidableEq

/-- The configuration surface read by `SyncGraphGroup`. -/
structure Config where
  N : ℕ                -- devices_.size()
  movingAvg : Bool     -- options "moving-average"
  mvDecay : ℚ          -- options "moving-decay"
  noReload : Bool      -- options "no-reload"
  overwrite : Bool     -- options "overwrite"
  modelPath : String   -- options "model"

/-- The mutable state of a `SyncGraphGroup`: per-replica flat parameter and
gradient buffers (`graphs_[i]->params()->vals()` / `->grads()`), the shard
buffers `params_`, `grads_`, `paramsAvg_`, `shardSize_` and `first_`.
(`tmpTensors_` only stages the copy inside the accumulation loop and is
modelled inside `reduceGrad`.) -/
structure Group where
  graphsParams : List (List ℚ)
  graphsGrads : List (List ℚ)
  params : List (List ℚ)
  grads : List (List ℚ)
  paramsAvg : List (List ℚ)
  shardSize : ℕ
  first : Bool
deriving DecidableEq

/-- Oracles for one call to `execute(batch)`: the sizes of `batch->split(N)`,
the cost scalar and gradient buffer produced by `build/forward/backward` on
each replica, the per-shard optimizer `update`, the parameters each graph
holds after the first-step `build`+`forward`, and the effect of
`scheduler_->validate(graphs_[0])` on the primary replica's buffer. -/
structure StepIn where
  batchSizes : List ℕ
  buildParams : ℕ → List ℚ
  bwCost : ℕ → ℚ
  bwGrad : ℕ → List ℚ
  opt : ℕ → List ℚ → List ℚ → List ℚ
  validateEff : List ℚ → List ℚ

/-- `min(mvDecay_, (float)(batches + 1) / (float)(batches + 10))`. -/
def emaDecay (mvDecay : ℚ) (batches : ℕ) : ℚ :=
  min mvDecay (((batches : ℚ) + 1) / ((batches : ℚ) + 10))

/-- `SyncGraphGroup::updateMovingAverage`:
`Element(_1 = (decay * _1) + ((1.f - decay) * _2), paramsAvg, params)`. -/
def updateMovingAverage (mvDecay : ℚ) (paramsAvg params : List ℚ) (batches : ℕ) : List ℚ :=
  let decay := emaDecay mvDecay batches
  List.zipWith (fun a p => decay * a + (1 - decay) * p) paramsAvg params

/-- The thread loop of `SyncGraphGroup::fetchParams`: the `idx`-th thread
copies `params[idx]` into `oldParams` at offset `idx * shardSize_`
(`pos += shardSize_` per iteration). -/
def fetchGo (shardSize : ℕ) : List (List ℚ) → ℕ → List ℚ → List ℚ
  | [], _, b => b
  | p :: ps, pos, b => fetchGo shardSize ps (pos + shardSize) (writeSlice b pos p)

/-- `SyncGraphGroup::fetchParams(oldParams, params)`. -/
def fetchParams (shardSize : ℕ) (oldParams : List ℚ) (params : List (List ℚ)) : List ℚ :=
  fetchGo shardSize params 0 oldParams

/-- The `if(first_)` block of `SyncGraphGroup::execute`: build every graph
(replica `i > 0` then copies its parameters from replica 0), size and fill
the shard buffers from replica 0's flat buffer, and—with moving averaging
on—initialize each shadow shard from its live shard. -/
def initFirst (cfg : Config) (inp : StepIn) (g : Group) : Group :=
  if g.first then
    let built := (List.range cfg.N).map
      (fun i => if i = 0 then inp.buildParams i else inp.buildParams 0)
    let g1 : Group := { g with graphsParams := built }
    let g2 : Group :=
      if g1.params.length = 0 then
        let T := (g1.graphsParams.getD 0 []).length
        let table := shardTable T cfg.N
        { g1 with
          shardSize := ceilDiv T cfg.N
          params := table.map (fun r => subtensor (g1.graphsParams.getD 0 []) r.1 r.2)
          grads := table.map (fun r => List.replicate r.2 0) }
      else g1
    let g3 :=
      if cfg.movingAvg && decide (g2.paramsAvg.length = 0) then
        -- the loop re-derives the same sizes and does `paramAvg->copyFrom(params_[i])`
        { g2 with paramsAvg := g2.params }
      else g2
    { g3 with first := false }
  else g

/-- The first thread-pool phase of `execute`: for every replica whose
sub-batch is non-empty, `build`+`forward` produce a cost scalar and
`backward` fills the replica's gradient buffer; empty sub-batches are
skipped, leaving a zero cost slot (`std::vector<float> costs(N)` is
zero-initialized) and a stale gradient buffer. -/
def computePhase (cfg : Config) (inp : StepIn) (g : Group) : Group × List ℚ :=
  let costs := (List.range cfg.N).map
    (fun i => if 0 < inp.batchSizes.getD i 0 then inp.bwCost i else 0)
  let gg := (List.range cfg.N).map
    (fun i => if 0 < inp.batchSizes.getD i 0 then inp.bwGrad i else g.graphsGrads.getD i [])
  ({ g with graphsGrads := gg }, costs)

/-- The accumulation loop of a reduction task: `grads_[idx]->set(0)`, then
for every replica with a non-empty sub-batch, stage
`tmp := subGrad = graph->params()->grads()->subtensor(pos, size)` and add it
element-wise into the accumulator. -/
def reduceGrad (batchSizes : List ℕ) (graphsGrads : List (List ℚ)) (pos size : ℕ) : List ℚ :=
  (List.range graphsGrads.length).foldl
    (fun acc i =>
      if 0 < batchSizes.getD i 0 then
        let tmp := subtensor (graphsGrads.getD i []) pos size
        addVec acc tmp
      else acc)
    (List.replicate size 0)

/-- One reduction task of the second thread-pool phase: accumulate the shard's
gradient, run the shard's optimizer, optionally update the moving average
(reading `scheduler_->numberOfBatches()` with NO null guard — a null
scheduler is modelled as `none`), and broadcast the new shard value into
every replica's buffer at offset `pos`. -/
def shardTask (cfg : Config) (sched : Option Sched) (inp : StepIn)
    (idx pos : ℕ) (g : Group) : Option Group :=
  let size := (g.params.getD idx []).length
  let newGrad := reduceGrad inp.batchSizes g.graphsGrads pos size
  let newParam := inp.opt idx (g.params.getD idx []) newGrad
  if cfg.movingAvg then
    match sched with
    | none => none  -- scheduler_->numberOfBatches() dereferences a null pointer
    | some s =>
      some { g with
        grads := g.grads.set idx newGrad
        params := g.params.set idx newParam
        paramsAvg := g.paramsAvg.set idx
          (updateMovingAverage cfg.mvDecay (g.paramsAvg.getD idx []) newParam s.numberOfBatches)
        graphsParams := g.graphsParams.map (fun b => writeSlice b pos newParam) }
  else
    some { g with
      grads := g.grads.set idx newGrad
      params := g.params.set idx newParam
      graphsParams := g.graphsParams.map (fun b => writeSlice b pos newParam) }

/-- The enqueue loop of the reduction phase: shard `idx` at offset `pos`,
then `pos += params_[idx]->size()`. -/
def reduceFrom (cfg : Config) (sched : Option Sched) (inp : StepIn) :
    ℕ → ℕ → ℕ → Group → Option Group
  | 0, _, _, g => some g
  | fuel + 1, idx, pos, g =>
    match shardTask cfg sched inp idx pos g with
    | none => none
    | some g1 => reduceFrom cfg sched inp fuel (idx + 1) (pos + (g.params.getD idx []).length) g1

/-- The whole second thread-pool phase of `execute`. -/
def reducePhase (cfg : Config) (sched : Option Sched) (inp : StepIn) (g : Group) :
    Option Group :=
  reduceFrom cfg sched inp cfg.N 0 0 g

/-- The `scheduler_->validating()` branch of `execute`: with moving averaging
on, overwrite the primary replica's buffer with the shadow shards, run
`validate(graphs_[0])`, then overwrite it again with the live shards. -/
def validateBranch (cfg : Config) (inp : StepIn) (g : Group) : Group :=
  let b0 := g.graphsParams.getD 0 []
  let b1 := if cfg.movingAvg then fetchParams g.shardSize b0 g.paramsAvg else b0
  let b2 := inp.validateEff b1
  let b3 := if cfg.movingAvg then fetchParams g.shardSize b2 g.params else b2
  { g with graphsParams := g.graphsParams.set 0 b3 }

/-- `nameOverwrite.replace(name.size() - 4, 4, ".iter" + numberOfBatches + ".npz")`. -/
def iterName (name nb : String) : String :=
  name.dropRight 4 ++ ".iter" ++ nb ++ ".npz"

/-- The outcome of `SyncGraphGroup::save`. -/
structure SaveOut where
  group : Group
  files : List (String × List ℚ)   -- builders_[idx]->save(graphs_[idx], name): (name, saved buffer)
  schedSaved : Option String       -- scheduler_->save(name), when a scheduler is set
deriving DecidableEq

/-- `SyncGraphGroup::save(graphs_[0], final)`: with moving averaging on,
fetch the shadow shards into the primary replica before serializing; write
an `.iterN.npz` snapshot when overwrite-mode is off and the save is not
final; always write the model path and save scheduler state when a
scheduler is set; finally fetch the live shards back. -/
def saveModel (cfg : Config) (sched : Option Sched) (g : Group) (final : Bool) : SaveOut :=
  let live := g.graphsParams.getD 0 []
  let toSave := if cfg.movingAvg then fetchParams g.shardSize live g.paramsAvg else live
  let name := cfg.modelPath
  let files :=
    if cfg.overwrite then [(name, toSave)]
    else
      if final then [(name, toSave)]
      else
        let nb := match sched with
          | some s => toString s.numberOfBatches
          | none => "unknown"
        [(iterName name nb, toSave), (name, toSave)]
  let schedSaved := match sched with
    | some _ => some name
    | none => none
  let restored := if cfg.movingAvg then fetchParams g.shardSize toSave g.params else toSave
  { group := { g with graphsParams := g.graphsParams.set 0 restored }
    files := files
    schedSaved := schedSaved }

/-- `SyncGraphGroup::load`: only when reload is not disabled and the
checkpoint file exists, restore scheduler state (if a scheduler is set) and
load the checkpoint into every replica; otherwise a no-op. -/
def loadModel (cfg : Config) (fileExists : Bool) (ckpt : List ℚ)
    (schedLoad : Sched → Sched) (sched : Option Sched) (g : Group) :
    Group × Option Sched :=
  if cfg.noReload then (g, sched)
  else if fileExists then
    let sched1 := match sched with
      | some s => some (schedLoad s)
      | none => none
    ({ g with graphsParams := g.graphsParams.map (fun _ => ckpt) }, sched1)
  else (g, sched)

/-- `SyncGraphGroup::execute(batch)` =` update(batch)`: lazy first-step
initialization, compute phase, reduction phase, cost aggregation
(`cost = Σ costs / costs.size()`), then the scheduler callbacks — all of
which are skipped when no scheduler was set.  `none` models the process
crashing on the unguarded `scheduler_->numberOfBatches()`. -/
def execute (cfg : Config) (sched : Option Sched) (inp : StepIn) (g : Group) :
    Option (Group × ℚ) :=
  let g0 := initFirst cfg inp g
  let pc := computePhase cfg inp g0
  match reducePhase cfg sched inp pc.1 with
  | none => none
  | some g2 =>
    let cost := pc.2.sum / (pc.2.length : ℚ)
    match sched with
    | none => some (g2, cost)
    | some s =>
      let g3 := if s.savingFlag then (saveModel cfg sched g2 false).group else g2
      let g4 := if s.validatingFlag then validateBranch cfg inp g3 else g3
      some (g4, cost)

/-- Layout check: the buffers of `ps` have exactly the sizes the shard
allocation loop produces for `shardSize` and a remaining count `rem`,
consuming all of `rem`. -/
def shardSizesOK (shardSize : ℕ) : ℕ → List (List ℚ) → Bool
  | rem, [] => decide (rem = 0)
  | rem, p :: ps =>
    decide (p.length = min shardSize rem) && shardSizesOK shardSize (rem - p.length) ps

/-! ### Concrete instances used by witnesses and counterexamples -/

/-- Replica convergence: 2 devices, 3 parameters split `[2, 1]`, both
sub-batches non-empty, replicas deliberately out of sync before reduction. -/
def cfgW1 : Config :=
  { N := 2, movingAvg := false, mvDecay := 9999/10000, noReload := false,
    overwrite := false, modelPath := "model.npz" }

def inpW1 : StepIn :=
  { batchSizes := [1, 1]
    buildParams := fun _ => [7, 7, 7]
    bwCost := fun _ => 1
    bwGrad := fun _ => [1, 1, 1]
    opt := fun _ p _ => p
    validateEff := fun x => x }

def gW1 : Group :=
  { graphsParams := [[0, 0, 0], [9, 9, 9]]
    graphsGrads := [[1, 1, 1], [2, 2, 2]]
    params := [[1, 2], [3]]
    grads := [[0, 0], [0]]
    paramsAvg := []
    shardSize := 2
    first := false }

def gW1r : Group := (reducePhase cfgW1 none inpW1 gW1).getD gW1

def gW0 : Group := { gW1 with first := true }

/-- Gradient conservation: 2 replicas, replica 1's sub-batch empty, one
shard of size 2 at offset 0. -/
def gcWcfg : Config :=
  { N := 2, movingAvg := false, mvDecay := 9999/10000, noReload := false,
    overwrite := false, modelPath := "model.npz" }

def gcWinp : StepIn :=
  { batchSizes := [1, 0]
    buildParams := fun _ => []
    bwCost := fun _ => 0
    bwGrad := fun _ => []
    opt := fun _ p _ => p
    validateEff := fun x => x }

def gcW : Group :=
  { graphsParams := [[0, 0], [0, 0]]
    graphsGrads := [[1, 2], [3, 4]]
    params := [[5, 6]]
    grads := [[0, 0]]
    paramsAvg := []
    shardSize := 2
    first := false }

def gcW1 : Group := (shardTask gcWcfg none gcWinp 0 0 gcW).getD gcW

/-- Cost averaging counterexample: 2 devices, one empty sub-batch, each
non-empty replica reports cost 3. -/
def cfg4x : Config :=
  { N := 2, movingAvg := false, mvDecay := 9999/10000, noReload := false,
    overwrite := false, modelPath := "model.npz" }

def sched4x : Sched := { numberOfBatches := 0, savingFlag := false, validatingFlag := false }

def inp4x : StepIn :=
  { batchSizes := [1, 0]
    buildParams := fun _ => []
    bwCost := fun _ => 3
    bwGrad := fun _ => [2]
    opt := fun _ p _ => p
    validateEff := fun x => x }

def g4x : Group :=
  { graphsParams := [[1], [1]]
    graphsGrads := [[2], [5]]
    params := [[1], []]
    grads := [[0], []]
    paramsAvg := []
    shardSize := 1
    first := false }

/-- Cost averaging witness: 3 devices, one empty sub-batch. -/
def cfgW4 : Config :=
  { N := 3, movingAvg := false, mvDecay := 9999/10000, noReload := false,
    overwrite := false, modelPath := "model.npz" }

def inpW4 : StepIn :=
  { batchSizes := [1, 1, 0]
    buildParams := fun _ => []
    bwCost := fun _ => 3
    bwGrad := fun _ => [1, 1, 1]
    opt := fun _ p _ => p
    validateEff := fun x => x }

def gW4 : Group :=
  { graphsParams := [[1, 1, 1], [1, 1, 1], [1, 1, 1]]
    graphsGrads := [[1, 1, 1], [1, 1, 1], [1, 1, 1]]
    params := [[1], [1], [1]]
    grads := [[0], [0], [0]]
    paramsAvg := []
    shardSize := 1
    first := false }

def pairW4 : Group × ℚ := (execute cfgW4 none inpW4 gW4).getD (gW4, 0)

/-- Validation isolation witness: moving averaging on, 3 parameters split
`[2, 1]`, shadow differs from the live shards. -/
def cfgW7 : Config :=
  { N := 2, movingAvg := true, mvDecay := 9999/10000, noReload := false,
    overwrite := false, modelPath := "model.npz" }

def inpW7 : StepIn :=
  { batchSizes := [1, 1]
    buildParams := fun _ => []
    bwCost := fun _ => 0
    bwGrad := fun _ => []
    opt := fun _ p _ => p
    validateEff := fun x => x }

def gW7 : Group :=
  { graphsParams := [[1, 2, 3]]
    graphsGrads := []
    params := [[1, 2], [3]]
    grads := [[0, 0], [0]]
    paramsAvg := [[4, 5], [6]]
    shardSize := 2
    first := false }

/-- Save counterexample: moving averaging on, live parameters `[1]`,
shadow `[5]`, overwrite-mode on, final save. -/
def cfg8x : Config :=
  { N := 1, movingAvg := true, mvDecay := 9999/10000, noReload := false,
    overwrite := true, modelPath := "model.npz" }

def g8x : Group :=
  { graphsParams := [[1]]
    graphsGrads := []
    params := [[1]]
    grads := [[0]]
    paramsAvg := [[5]]
    shardSize := 1
    first := false }

/-- Save witness: moving averaging on, overwrite-mode off, non-final save. -/
def cfgW8 : Config :=
  { N := 2, movingAvg := true, mvDecay := 9999/10000, noReload := false,
    overwrite := false, modelPath := "model.npz" }

def schedW8 : Sched := { numberOfBatches := 5, savingFlag := true, validatingFlag := false }

def gW8 : Group :=
  { graphsParams := [[1, 2, 3]]
    graphsGrads := []
    params := [[1, 2], [3]]
    grads := [[0, 0], [0]]
    paramsAvg := [[4, 5], [6]]
    shardSize := 2
    first := false }

/-- Load witness state. -/
def cfgW9a : Config :=
  { N := 1, movingAvg := false, mvDecay := 9999/10000, noReload := true,
    overwrite := false, modelPath := "model.npz" }

def cfgW9b : Config := { cfgW9a with noReload := false }

def schedW9 : Sched := { numberOfBatches := 2, savingFlag := false, validatingFlag := false }

def gW9 : Group :=
  { graphsParams := [[1]]
    graphsGrads := [[0]]
    params := [[1]]
    grads := [[0]]
    paramsAvg := []
    shardSize := 1
    first := false }

/-- Null-scheduler state: one device, one parameter; `c10cfgA` has moving
averaging on (the unguarded `numberOfBatches()` read), `c10cfgB` off. -/
def c10cfgA : Config :=
  { N := 1, movingAvg := true, mvDecay := 9999/10000, noReload := false,
    overwrite := false, modelPath := "model.npz" }

def c10cfgB : Config := { c10cfgA with movingAvg := false }

def c10inp : StepIn :=
  { batchSizes := [1]
    buildParams := fun _ => []
    bwCost := fun _ => 1
    bwGrad := fun _ => [1]
    opt := fun _ p q => addVec p q
    validateEff := fun x => x }

def c10g : Group :=
  { graphsParams := [[1]]
    graphsGrads := [[1]]
    params := [[1]]
    grads := [[0]]
    paramsAvg := [[1]]
    shardSize := 1
    first := false }

/-! ### List utilities -/

theorem getD_map {α β : Type} (f : α → β) (l : List α) (i : ℕ) (hi : i < l.length)
    (d : β) (d' : α) : (l.map f).getD i d = f (l.getD i d') := by
  induction l generalizing i with
  | nil => simp at hi
  | cons a l ih =>
    cases i with
    | zero => simp
    | succ j => simpa using ih j (by simpa using hi)

theorem getD_mem' {α : Type} (l : List α) (i : ℕ) (hi : i < l.length) (d : α) :
    l.getD i d ∈ l := by
  induction l generalizing i with
  | nil => simp at hi
  | cons a l ih =>
    cases i with
    | zero => simp
    | succ j => simpa using Or.inr (ih j (by simpa using hi))

theorem set_oob {α : Type} (l : List α) (i : ℕ) (v : α) (h : l.length ≤ i) :
    l.set i v = l := by
  induction l generalizing i with
  | nil => simp
  | cons a l ih =>
    cases i with
    | zero => simp at h
    | succ j => simpa using ih j (by simpa using h)

theorem getD_set_self {α : Type} (l : List α) (i : ℕ) (v d : α) (h : i < l.length) :
    (l.set i v).getD i d = v := by
  induction l generalizing i with
  | nil => simp at h
  | cons a l ih =>
    cases i with
    | zero => simp
    | succ j => simpa using ih j (by simpa using h)

theorem getD_set_ne {α : Type} (l : List α) (i j : ℕ) (v d : α) (h : i ≠ j) :
    (l.set i v).getD j d = l.getD j d := by
  induction l generalizing i j with
  | nil => simp
  | cons a l ih =>
    cases i with
    | zero => cases j with
      | zero => exact absurd rfl h
      | succ k => simp
    | succ i' => cases j with
      | zero => simp
      | succ k => simpa using ih i' k (by omega)

theorem foldl_ext_mem {α β : Type} (f g : β → α → β) (l : List α) :
    ∀ b : β, (∀ b' : β, ∀ a ∈ l, f b' a = g b' a) → l.foldl f b = l.foldl g b := by
  induction l with
  | nil => intro b _; rfl
  | cons a l ih =>
    intro b h
    simp only [List.foldl_cons]
    rw [h b a (by simp)]
    exact ih _ (fun b' a' ha' => h b' a' (by simp [ha']))

theorem map_ext_mem {α β : Type} (f g : α → β) (l : List α)
    (h : ∀ a ∈ l, f a = g a) : l.map f = l.map g := by
  induction l with
  | nil => rfl
  | cons a l ih =>
    simp only [List.map_cons, h a (by simp)]
    rw [ih (fun a' ha' => h a' (by simp [ha']))]

/-! ### Slice writing -/

theorem totalLen_nil : totalLen [] = 0 := rfl

theorem totalLen_cons (p : List ℚ) (ps : List (List ℚ)) :
    totalLen (p :: ps) = p.length + totalLen ps := by simp [totalLen]

theorem writeSlice_nil (b : List ℚ) (pos : ℕ) : writeSlice b pos [] = b := by
  simp [writeSlice]

theorem writeSlice_length (b : List ℚ) (pos : ℕ) (v : List ℚ)
    (h : pos + v.length ≤ b.length) : (writeSlice b pos v).length = b.length := by
  simp only [writeSlice, List.length_append, List.length_take, List.length_drop]
  omega

theorem writeSeq_eq (vs : List (List ℚ)) : ∀ (b : List ℚ) (pos : ℕ),
    pos + totalLen vs ≤ b.length →
    writeSeq b pos vs = b.take pos ++ vs.flatten ++ b.drop (pos + totalLen vs) := by
  induction vs with
  | nil =>
    intro b pos h
    simp [writeSeq, totalLen]
  | cons v vs ih =>
    intro b pos h
    rw [totalLen_cons] at h
    have hpos : pos ≤ b.length := by omega
    have hpv : pos + v.length ≤ b.length := by omega
    have hlen : (writeSlice b pos v).length = b.length := writeSlice_length b pos v hpv
    have htp : (b.take pos).length = pos := by simp; omega
    have htpv : (b.take pos ++ v).length = pos + v.length := by simp; omega
    show writeSeq (writeSlice b pos v) (pos + v.length) vs = _
    rw [ih (writeSlice b pos v) (pos + v.length) (by omega)]
    have h1 : (writeSlice b pos v).take (pos + v.length) = b.take pos ++ v := by
      have : writeSlice b pos v = (b.take pos ++ v) ++ b.drop (pos + v.length) := by
        simp [writeSlice]
      rw [this, List.take_left' htpv]
    have h2 : (writeSlice b pos v).drop (pos + v.length + totalLen vs)
        = b.drop (pos + totalLen (v :: vs)) := by
      have heq : writeSlice b pos v = (b.take pos ++ v) ++ b.drop (pos + v.length) := by
        simp [writeSlice]
      have : pos + v.length + totalLen vs
          = (b.take pos ++ v).length + totalLen vs := by omega
      rw [heq, this, ← List.drop_drop]
      rw [List.drop_left' rfl]
      rw [List.drop_drop, totalLen_cons]
      congr 1
      omega
    rw [h1, h2, totalLen_cons]
    simp [List.append_assoc]

theorem writeSeq_flatten (vs : List (List ℚ)) (b : List ℚ)
    (h : b.length = totalLen vs) : writeSeq b 0 vs = vs.flatten := by
  rw [writeSeq_eq vs b 0 (by omega)]
  rw [show 0 + totalLen vs = b.length from by omega]
  simp

theorem writeSeq_all_nil (vs : List (List ℚ)) : ∀ (b : List ℚ) (pos : ℕ),
    (∀ p ∈ vs, p = []) → writeSeq b pos vs = b := by
  induction vs with
  | nil => intro b pos _; rfl
  | cons v vs ih =>
    intro b pos h
    have hv : v = [] := h v (by simp)
    show writeSeq (writeSlice b pos v) (pos + v.length) vs = b
    rw [hv, writeSlice_nil]
    exact ih b _ (fun p hp => h p (by simp [hp]))

/-! ### The layout predicate and `fetchParams` -/

theorem shardSizesOK_total (s : ℕ) (ps : List (List ℚ)) : ∀ rem : ℕ,
    shardSizesOK s rem ps = true → totalLen ps = rem := by
  induction ps with
  | nil =>
    intro rem h
    simp [shardSizesOK] at h
    simp [totalLen, h]
  | cons p ps ih =>
    intro rem h
    simp only [shardSizesOK, Bool.and_eq_true, decide_eq_true_eq] at h
    have := ih (rem - p.length) h.2
    rw [totalLen_cons, this]
    omega

theorem shardSizesOK_zero (s : ℕ) (ps : List (List ℚ)) :
    shardSizesOK s 0 ps = true → ∀ p ∈ ps, p = [] := by
  induction ps with
  | nil => simp
  | cons p ps ih =>
    intro h q hq
    simp only [shardSizesOK, Bool.and_eq_true, decide_eq_true_eq] at h
    have hp : p = [] := by
      have : p.length = 0 := by omega
      exact List.length_eq_zero.mp this
    rcases List.mem_cons.mp hq with hq | hq
    · rw [hq, hp]
    · refine ih ?_ q hq
      have : 0 - p.length = 0 := by omega
      rw [← this]
      exact h.2

theorem fetchGo_all_nil (s : ℕ) (ps : List (List ℚ)) : ∀ (b : List ℚ) (pos : ℕ),
    (∀ p ∈ ps, p = []) → fetchGo s ps pos b = b := by
  induction ps with
  | nil => intro b pos _; rfl
  | cons p ps ih =>
    intro b pos h
    have hp : p = [] := h p (by simp)
    show fetchGo s ps (pos + s) (writeSlice b pos p) = b
    rw [hp, writeSlice_nil]
    exact ih b _ (fun q hq => h q (by simp [hq]))

theorem fetchGo_eq_writeSeq (s : ℕ) (ps : List (List ℚ)) : ∀ (rem pos : ℕ) (b : List ℚ),
    shardSizesOK s rem ps = true → fetchGo s ps pos b = writeSeq b pos ps := by
  induction ps with
  | nil => intro rem pos b _; rfl
  | cons p ps ih =>
    intro rem pos b h
    simp only [shardSizesOK, Bool.and_eq_true, decide_eq_true_eq] at h
    show fetchGo s ps (pos + s) (writeSlice b pos p) = writeSeq (writeSlice b pos p) (pos + p.length) ps
    by_cases hc : s ≤ rem
    · have hp : p.length = s := by omega
      rw [hp]
      exact ih (rem - p.length) (pos + s) _ h.2
    · -- last (short) shard: everything after it has size `min s 0 = 0`
      have hp : p.length = rem := by omega
      have h0 : shardSizesOK s 0 ps = true := by
        have : rem - p.length = 0 := by omega
        rw [← this]; exact h.2
      have hnil := shardSizesOK_zero s ps h0
      rw [fetchGo_all_nil s ps _ _ hnil, writeSeq_all_nil ps _ _ hnil]

/-- `fetchParams` overwrites the whole destination buffer with the
concatenation of the shard buffers, whatever it held before. -/
theorem fetchParams_flatten (s : ℕ) (ps : List (List ℚ)) (b : List ℚ) (rem : ℕ)
    (hok : shardSizesOK s rem ps = true) (hb : b.length = rem) :
    fetchParams s b ps = ps.flatten := by
  rw [fetchParams, fetchGo_eq_writeSeq s ps rem 0 b hok, writeSeq_flatten]
  rw [hb, shardSizesOK_total s ps rem hok]

/-! ### Shard table lemmas -/

theorem ceilDiv_mul_ge (T N : ℕ) (hN : 1 ≤ N) : T ≤ N * ceilDiv T N := by
  have hdm := Nat.div_add_mod (T + N - 1) N
  have hlt : (T + N - 1) % N < N := Nat.mod_lt _ (by omega)
  simp only [ceilDiv]
  omega

theorem mkShards_length (s : ℕ) : ∀ (n pos rem : ℕ), (mkShards s n pos rem).length = n := by
  intro n
  induction n with
  | zero => intro pos rem; rfl
  | succ m ih => intro pos rem; simp [mkShards, ih]

theorem coverCount_cons (r : ℕ × ℕ) (L : List (ℕ × ℕ)) (i : ℕ) :
    coverCount (r :: L) i
      = (if r.1 ≤ i ∧ i < r.1 + r.2 then 1 else 0) + coverCount L i := by
  simp only [coverCount, List.filter_cons]
  by_cases h : r.1 ≤ i ∧ i < r.1 + r.2 <;> simp [h] <;> omega

theorem mkShards_cover (s : ℕ) : ∀ (n pos rem : ℕ), rem ≤ n * s → ∀ i : ℕ,
    coverCount (mkShards s n pos rem) i = if pos ≤ i ∧ i < pos + rem then 1 else 0 := by
  intro n
  induction n with
  | zero =>
    intro pos rem hrem i
    have : rem = 0 := by omega
    subst this
    simp only [mkShards, coverCount, List.filter_nil, List.length_nil]
    split_ifs <;> omega
  | succ m ih =>
    intro pos rem hrem i
    have hs0 : min s rem ≤ rem := Nat.min_le_right _ _
    have hs1 : min s rem ≤ s := Nat.min_le_left _ _
    have htail : rem - min s rem ≤ m * s := by
      by_cases hc : s ≤ rem
      · have : min s rem = s := by omega
        rw [this]
        have : (m + 1) * s = m * s + s := by ring
        omega
      · have : min s rem = rem := by omega
        omega
    show coverCount ((pos, min s rem) :: mkShards s m (pos + min s rem) (rem - min s rem)) i = _
    rw [coverCount_cons, ih (pos + min s rem) (rem - min s rem) htail i]
    have hmin : min s rem ≤ rem := hs0
    split_ifs <;> omega

theorem mkShards_getD_head (s : ℕ) (n pos rem : ℕ) (hn : 0 < n) :
    (mkShards s n pos rem).getD 0 (0, 0) = (pos, min s rem) := by
  cases n with
  | zero => omega
  | succ m => rfl

theorem mkShards_getD_succ (s : ℕ) (n pos rem k : ℕ) :
    (mkShards s (n + 1) pos rem).getD (k + 1) (0, 0)
      = (mkShards s n (pos + min s rem) (rem - min s rem)).getD k (0, 0) := rfl

theorem mkShards_size_formula (s : ℕ) : ∀ (n pos rem k : ℕ), k < n →
    ((mkShards s n pos rem).getD k (0, 0)).2
      = min s ((pos + rem) - ((mkShards s n pos rem).getD k (0, 0)).1) := by
  intro n
  induction n with
  | zero => intro pos rem k hk; omega
  | succ m ih =>
    intro pos rem k hk
    cases k with
    | zero =>
      rw [mkShards_getD_head s (m + 1) pos rem (by omega)]
      have : pos + rem - pos = rem := by omega
      rw [this]
    | succ k' =>
      rw [mkShards_getD_succ]
      have hrec := ih (pos + min s rem) (rem - min s rem) k' (by omega)
      have hmin : min s rem ≤ rem := Nat.min_le_right _ _
      have heq : pos + min s rem + (rem - min s rem) = pos + rem := by omega
      rw [heq] at hrec
      exact hrec

theorem mkShards_contiguous (s : ℕ) : ∀ (n pos rem k : ℕ), k + 1 < n →
    ((mkShards s n pos rem).getD (k + 1) (0, 0)).1
      = ((mkShards s n pos rem).getD k (0, 0)).1
        + ((mkShards s n pos rem).getD k (0, 0)).2 := by
  intro n
  induction n with
  | zero => intro pos rem k hk; omega
  | succ m ih =>
    intro pos rem k hk
    cases k with
    | zero =>
      rw [mkShards_getD_succ, mkShards_getD_head s (m + 1) pos rem (by omega),
        mkShards_getD_head s m _ _ (by omega)]
    | succ k' =>
      rw [mkShards_getD_succ s m pos rem (k' + 1), mkShards_getD_succ s m pos rem k']
      exact ih (pos + min s rem) (rem - min s rem) k' (by omega)

/-! ### Reduction phase lemmas -/

theorem shardTask_some (cfg : Config) (sched : Option Sched) (inp : StepIn)
    (idx pos : ℕ) (g g1 : Group)
    (h : shardTask cfg sched inp idx pos g = some g1) :
    g1.params = g.params.set idx (inp.opt idx (g.params.getD idx [])
      (reduceGrad inp.batchSizes g.graphsGrads pos (g.params.getD idx []).length)) ∧
    g1.grads = g.grads.set idx
      (reduceGrad inp.batchSizes g.graphsGrads pos (g.params.getD idx []).length) ∧
    g1.graphsParams = g.graphsParams.map (fun b =>
      writeSlice b pos (inp.opt idx (g.params.getD idx [])
        (reduceGrad inp.batchSizes g.graphsGrads pos (g.params.getD idx []).length))) := by
  unfold shardTask at h
  by_cases hma : cfg.movingAvg
  · simp only [hma, if_true] at h
    cases sched with
    | none => simp at h
    | some s =>
      simp only [Option.some.injEq] at h
      subst h
      exact ⟨rfl, rfl, rfl⟩
  · simp only [hma, if_false, Bool.false_eq_true, Option.some.injEq] at h
    subst h
    exact ⟨rfl, rfl, rfl⟩

theorem sum_range_getD_length (ps : List (List ℚ)) :
    ((List.range ps.length).map (fun j => (ps.getD j []).length)).sum = totalLen ps := by
  induction ps with
  | nil => rfl
  | cons p ps ih =>
    rw [totalLen_cons, ← ih]
    simp only [List.length_cons, List.range_succ_eq_map, List.map_cons, List.map_map,
      List.sum_cons]
    congr 1

/-- The reduction phase, `fuel` shards starting at index `idx` and write
offset `pos`: it preserves every shard buffer's length, and its cumulative
effect on the replicas is one identical back-to-back slice-write sequence
whose total length is the total size of the processed shards. -/
theorem reduceFrom_spec (cfg : Config) (sched : Option Sched) (inp : StepIn)
    (hopt : ∀ i p q, (inp.opt i p q).length = p.length) :
    ∀ (fuel idx pos : ℕ) (g g' : Group),
      reduceFrom cfg sched inp fuel idx pos g = some g' →
      (∀ j, (g'.params.getD j []).length = (g.params.getD j []).length) ∧
      ∃ vals : List (List ℚ),
        totalLen vals
          = ((List.range fuel).map (fun j => (g.params.getD (idx + j) []).length)).sum ∧
        g'.graphsParams = g.graphsParams.map (fun b => writeSeq b pos vals) := by
  intro fuel
  induction fuel with
  | zero =>
    intro idx pos g g' h
    simp only [reduceFrom, Option.some.injEq] at h
    subst h
    refine ⟨fun j => rfl, [], by simp [totalLen], ?_⟩
    simp [writeSeq]
  | succ fuel ih =>
    intro idx pos g g' h
    simp only [reduceFrom] at h
    cases hst : shardTask cfg sched inp idx pos g with
    | none => rw [hst] at h; simp at h
    | some g1 =>
      rw [hst] at h
      obtain ⟨hp1, _, hg1⟩ := shardTask_some cfg sched inp idx pos g g1 hst
      -- the task preserves every shard length
      have hlen1 : ∀ j, (g1.params.getD j []).length = (g.params.getD j []).length := by
        intro j
        rw [hp1]
        by_cases hij : idx = j
        · subst hij
          by_cases hidx : idx < g.params.length
          · rw [getD_set_self _ _ _ _ hidx, hopt]
          · rw [set_oob _ _ _ (by omega)]
        · rw [getD_set_ne _ _ _ _ _ hij]
      obtain ⟨hlen2, vals, hvals, hgp⟩ := ih (idx + 1) (pos + (g.params.getD idx []).length) g1 g' h
      refine ⟨fun j => (hlen2 j).trans (hlen1 j), ?_⟩
      refine ⟨inp.opt idx (g.params.getD idx [])
        (reduceGrad inp.batchSizes g.graphsGrads pos (g.params.getD idx []).length) :: vals, ?_, ?_⟩
      · rw [totalLen_cons, hopt]
        rw [List.range_succ_eq_map, List.map_cons, List.sum_cons, List.map_map]
        have hv2 : totalLen vals
            = (List.map ((fun j => (g.params.getD (idx + j) []).length) ∘ Nat.succ)
                (List.range fuel)).sum := by
          rw [hvals]
          apply congrArg
          apply map_ext_mem
          intro j _
          simp only [Function.comp]
          rw [hlen1 (idx + 1 + j)]
          have hidxj : idx + Nat.succ j = idx + 1 + j := by omega
          rw [hidxj]
        rw [hv2]
        simp
      · rw [hgp, hg1, List.map_map]
        apply map_ext_mem
        intro b _
        simp only [Function.comp]
        have hcons : writeSeq b pos
            (inp.opt idx (g.params.getD idx [])
              (reduceGrad inp.batchSizes g.graphsGrads pos (g.params.getD idx []).length) :: vals)
            = writeSeq (writeSlice b pos (inp.opt idx (g.params.getD idx [])
                (reduceGrad inp.batchSizes g.graphsGrads pos (g.params.getD idx []).length)))
              (pos + (inp.opt idx (g.params.getD idx [])
                (reduceGrad inp.batchSizes g.graphsGrads pos
                  (g.params.getD idx []).length)).length) vals := rfl
        rw [hcons, hopt]

/-! ### Accumulation lemmas -/

theorem subtensor_length (l : List ℚ) (pos size : ℕ) (h : pos + size ≤ l.length) :
    (subtensor l pos size).length = size := by
  simp only [subtensor, List.length_take, List.length_drop]
  omega

theorem subtensor_getD (l : List ℚ) (pos size j : ℕ) (hj : j < size)
    (hl : pos + size ≤ l.length) :
    (subtensor l pos size).getD j 0 = l.getD (pos + j) 0 := by
  simp only [subtensor, List.getD_eq_getElem?_getD]
  rw [List.getElem?_take, if_pos hj, List.getElem?_drop]

theorem addVec_length (a b : List ℚ) : (addVec a b).length = min a.length b.length := by
  simp [addVec]

theorem addVec_getD (a b : List ℚ) (j : ℕ) (ha : j < a.length) (hb : j < b.length) :
    (addVec a b).getD j 0 = a.getD j 0 + b.getD j 0 := by
  induction a generalizing b j with
  | nil => simp at ha
  | cons x a ih =>
    cases b with
    | nil => simp at hb
    | cons y b =>
      cases j with
      | zero => simp [addVec]
      | succ k =>
        have := ih b k (by simpa using ha) (by simpa using hb)
        simpa [addVec] using this

theorem reduceFold_spec (bs : List ℕ) (ggrads : List (List ℚ)) (pos size : ℕ) :
    ∀ (rs : List ℕ) (acc : List ℚ), acc.length = size →
      (∀ i ∈ rs, 0 < bs.getD i 0 → pos + size ≤ (ggrads.getD i []).length) →
      (rs.foldl (fun acc i =>
          if 0 < bs.getD i 0 then addVec acc (subtensor (ggrads.getD i []) pos size)
          else acc) acc).length = size ∧
      ∀ j, j < size →
        (rs.foldl (fun acc i =>
            if 0 < bs.getD i 0 then addVec acc (subtensor (ggrads.getD i []) pos size)
            else acc) acc).getD j 0
          = acc.getD j 0
            + ((rs.filter (fun i => decide (0 < bs.getD i 0))).map
                (fun i => (ggrads.getD i []).getD (pos + j) 0)).sum := by
  intro rs
  induction rs with
  | nil =>
    intro acc hacc _
    exact ⟨hacc, fun j _ => by simp⟩
  | cons r rs ih =>
    intro acc hacc hread
    simp only [List.foldl_cons]
    by_cases hr : 0 < bs.getD r 0
    · have hglen : pos + size ≤ (ggrads.getD r []).length := hread r (by simp) hr
      have hsub : (subtensor (ggrads.getD r []) pos size).length = size :=
        subtensor_length _ _ _ hglen
      have hacc1 : (addVec acc (subtensor (ggrads.getD r []) pos size)).length = size := by
        rw [addVec_length, hacc, hsub]; omega
      have hrest := ih (addVec acc (subtensor (ggrads.getD r []) pos size)) hacc1
        (fun i hi => hread i (by simp [hi]))
      refine ⟨?_, ?_⟩
      · simp only [if_pos hr]
        exact hrest.1
      · intro j hj
        have h2 := hrest.2 j hj
        simp only [if_pos hr]
        rw [h2, addVec_getD acc _ j (by omega) (by omega),
          subtensor_getD _ _ _ _ hj hglen]
        rw [List.filter_cons, if_pos (show decide (0 < bs.getD r 0) = true by simpa using hr)]
        simp only [List.map_cons, List.sum_cons]
        ring
    · have hrest := ih acc hacc (fun i hi => hread i (by simp [hi]))
      refine ⟨?_, ?_⟩
      · simp only [if_neg hr]
        exact hrest.1
      · intro j hj
        have h2 := hrest.2 j hj
        simp only [if_neg hr]
        rw [h2, List.filter_cons,
          if_neg (show ¬ decide (0 < bs.getD r 0) = true by simpa using hr)]

theorem reduceGrad_eq_fold (bs : List ℕ) (ggrads : List (List ℚ)) (pos size : ℕ) :
    reduceGrad bs ggrads pos size
      = (List.range ggrads.length).foldl (fun acc i =>
          if 0 < bs.getD i 0 then addVec acc (subtensor (ggrads.getD i []) pos size)
          else acc) (List.replicate size 0) := rfl

/-! ### Moving-average algebra -/

theorem warmup_lt_one (b : ℕ) : ((b : ℚ) + 1) / ((b : ℚ) + 10) < 1 := by
  have hb : (0 : ℚ) ≤ (b : ℚ) := Nat.cast_nonneg b
  rw [div_lt_one (by linarith)]
  linarith

theorem emaDecay_one (b : ℕ) : emaDecay 1 b = ((b : ℚ) + 1) / ((b : ℚ) + 10) := by
  simp only [emaDecay]
  exact min_eq_right (le_of_lt (warmup_lt_one b))

theorem zipWith_decay_fixed (d : ℚ) (hd : d ≠ 1) : ∀ (a p : List ℚ), a.length = p.length →
    (List.zipWith (fun x y => d * x + (1 - d) * y) a p = a ↔ a = p) := by
  intro a
  induction a with
  | nil =>
    intro p hp
    cases p with
    | nil => simp
    | cons y p => simp at hp
  | cons x a ih =>
    intro p hp
    cases p with
    | nil => simp at hp
    | cons y p =>
      simp only [List.zipWith_cons_cons, List.cons.injEq]
      have hne : (1 : ℚ) - d ≠ 0 := by
        intro hc; apply hd; linarith
      have hhead : d * x + (1 - d) * y = x ↔ x = y := by
        constructor
        · intro h
          have h2 : (1 - d) * (y - x) = 0 := by linear_combination h
          rcases mul_eq_zero.mp h2 with h3 | h3
          · exact absurd h3 hne
          · have hyx : y = x := by linarith
            exact hyx.symm
        · intro h; rw [h]; ring
      rw [hhead, ih p (by simpa using hp)]

theorem emaDecay_mono (c : ℚ) (b b' : ℕ) (h : b ≤ b') : emaDecay c b ≤ emaDecay c b' := by
  unfold emaDecay
  apply min_le_min le_rfl
  have h10 : (0:ℚ) < (b:ℚ) + 10 := by positivity
  have h10' : (0:ℚ) < (b':ℚ) + 10 := by positivity
  rw [div_le_div_iff h10 h10']
  have hbb : (b:ℚ) ≤ (b':ℚ) := Nat.cast_le.mpr h
  nlinarith

theorem emaDecay_limit (c : ℚ) (hc : c ≤ 1) (ε : ℚ) (hε : 0 < ε) :
    ∃ B : ℕ, ∀ b : ℕ, B ≤ b → c - emaDecay c b < ε := by
  refine ⟨Nat.ceil (9 / ε), ?_⟩
  intro b hb
  unfold emaDecay
  by_cases hmin : c ≤ ((b:ℚ) + 1) / ((b:ℚ) + 10)
  · rw [min_eq_left hmin]
    simpa using hε
  · push_neg at hmin
    rw [min_eq_right (le_of_lt hmin)]
    have h10 : (0:ℚ) < (b:ℚ) + 10 := by positivity
    have hbQ : (9 / ε : ℚ) ≤ (b : ℚ) :=
      le_trans (Nat.le_ceil _) (Nat.cast_le.mpr hb)
    have h9b : (9:ℚ) ≤ (b:ℚ) * ε := (div_le_iff hε).mp hbQ
    have hkey : 1 - ((b:ℚ) + 1) / ((b:ℚ) + 10) = 9 / ((b:ℚ) + 10) := by
      field_simp
      ring
    have hle : c - ((b:ℚ) + 1) / ((b:ℚ) + 10) ≤ 9 / ((b:ℚ) + 10) := by
      rw [← hkey]; linarith
    have h9 : 9 / ((b:ℚ) + 10) < ε := by
      rw [div_lt_iff h10]
      nlinarith
    linarith

/-! ## Claims -/

/-- C2.  For every total parameter count `T ≥ 1` and device count `N ≥ 1`,
the first-step shard table has one entry per device, starts at offset 0,
assigns shard `k` the half-open range `[pos_k, pos_k + size_k)` with
`size_k = min(ceil(T/N), remaining)` where `remaining = T - pos_k`, the
ranges are contiguous in device order, and every index `i` is covered by
exactly one range iff `i < T` (pairwise disjoint, union `[0, T)`). -/
theorem shard_partition (T N : ℕ) (hT : 1 ≤ T) (hN : 1 ≤ N) :
    (shardTable T N).length = N ∧
    ((shardTable T N).getD 0 (0, 0)).1 = 0 ∧
    (∀ k, k + 1 < N → ((shardTable T N).getD (k + 1) (0, 0)).1
      = ((shardTable T N).getD k (0, 0)).1 + ((shardTable T N).getD k (0, 0)).2) ∧
    (∀ k, k < N → ((shardTable T N).getD k (0, 0)).2
      = min (ceilDiv T N) (T - ((shardTable T N).getD k (0, 0)).1)) ∧
    (∀ i, coverCount (shardTable T N) i = if i < T then 1 else 0) := by
  refine ⟨mkShards_length _ _ _ _, ?_, ?_, ?_, ?_⟩
  · rw [shardTable, mkShards_getD_head (ceilDiv T N) N 0 T (by omega)]
  · intro k hk
    exact mkShards_contiguous (ceilDiv T N) N 0 T k hk
  · intro k hk
    have := mkShards_size_formula (ceilDiv T N) N 0 T k hk
    simpa using this
  · intro i
    have hcov := mkShards_cover (ceilDiv T N) N 0 T (ceilDiv_mul_ge T N hN) i
    rw [shardTable, hcov]
    split_ifs <;> omega

/-- C2 witness: `T = 10`, `N = 3`. -/
theorem shard_partition_witness :
    (shardTable 10 3).length = 3 ∧
    ((shardTable 10 3).getD 1 (0, 0)).1
      = ((shardTable 10 3).getD 0 (0, 0)).1 + ((shardTable 10 3).getD 0 (0, 0)).2 ∧
    coverCount (shardTable 10 3) 9 = (if 9 < 10 then 1 else 0) ∧
    coverCount (shardTable 10 3) 10 = (if 10 < 10 then 1 else 0) := by
  have h := shard_partition 10 3 (by decide) (by decide)
  exact ⟨h.1, h.2.2.1 0 (by decide), h.2.2.2.2 9, h.2.2.2.2 10⟩

/-- C3.  After a reduction task's accumulation loop, the shard's
gradient-accumulator holds, at every offset `j` of the shard, exactly the
sum of the gradient slice entries `pos + j` of those replicas whose
sub-batch was non-empty; and the result never depends on the gradient
buffer of a replica whose sub-batch was empty (that buffer is never read). -/
theorem gradient_conservation (cfg : Config) (sched : Option Sched) (inp : StepIn)
    (g g1 : Group) (idx pos : ℕ)
    (hst : shardTask cfg sched inp idx pos g = some g1)
    (hidx : idx < g.grads.length)
    (hread : ∀ i, i < g.graphsGrads.length → 0 < inp.batchSizes.getD i 0 →
      pos + (g.params.getD idx []).length ≤ (g.graphsGrads.getD i []).length) :
    (g1.grads.getD idx []).length = (g.params.getD idx []).length ∧
    (∀ j, j < (g.params.getD idx []).length →
      (g1.grads.getD idx []).getD j 0
        = (((List.range g.graphsGrads.length).filter
              (fun i => decide (0 < inp.batchSizes.getD i 0))).map
            (fun i => (g.graphsGrads.getD i []).getD (pos + j) 0)).sum) ∧
    (∀ r v, inp.batchSizes.getD r 0 = 0 →
      reduceGrad inp.batchSizes (g.graphsGrads.set r v) pos (g.params.getD idx []).length
        = reduceGrad inp.batchSizes g.graphsGrads pos (g.params.getD idx []).length) := by
  obtain ⟨-, hgr, -⟩ := shardTask_some cfg sched inp idx pos g g1 hst
  have hfold := reduceFold_spec inp.batchSizes g.graphsGrads pos
    (g.params.getD idx []).length (List.range g.graphsGrads.length)
    (List.replicate (g.params.getD idx []).length 0) (by simp)
    (fun i hi => hread i (by simpa using hi))
  have hacc : g1.grads.getD idx []
      = reduceGrad inp.batchSizes g.graphsGrads pos (g.params.getD idx []).length := by
    rw [hgr, getD_set_self _ _ _ _ hidx]
  refine ⟨?_, ?_, ?_⟩
  · rw [hacc, reduceGrad_eq_fold]
    exact hfold.1
  · intro j hj
    rw [hacc, reduceGrad_eq_fold, hfold.2 j hj]
    simp
  · intro r v hr
    rw [reduceGrad_eq_fold, reduceGrad_eq_fold, List.length_set]
    apply foldl_ext_mem
    intro acc i hi
    by_cases hbi : 0 < inp.batchSizes.getD i 0
    · have hir : i ≠ r := by
        intro hc; rw [hc, hr] at hbi; omega
      rw [if_pos hbi, if_pos hbi, getD_set_ne _ _ _ _ _ (fun hc => hir hc.symm)]
    · rw [if_neg hbi, if_neg hbi]

/-- C3 witness: two replicas, replica 1 empty; shard of size 2 at offset 0. -/
theorem gradient_conservation_witness :
    ((gcW1.grads.getD 0 []).getD 0 0
      = (((List.range gcW.graphsGrads.length).filter
            (fun i => decide (0 < gcWinp.batchSizes.getD i 0))).map
          (fun i => (gcW.graphsGrads.getD i []).getD (0 + 0) 0)).sum) ∧
    reduceGrad gcWinp.batchSizes (gcW.graphsGrads.set 1 [9, 9]) 0
        (gcW.params.getD 0 []).length
      = reduceGrad gcWinp.batchSizes gcW.graphsGrads 0 (gcW.params.getD 0 []).length := by
  have h := gradient_conservation gcWcfg none gcWinp gcW gcW1 0 0 rfl (by decide)
    (by
      intro i hi hbi
      have h2 : i < 2 := hi
      interval_cases i
      · decide
      · exact absurd hbi (by decide))
  exact ⟨h.2.1 0 (by decide), h.2.2 1 [9, 9] rfl⟩

/-- C5 counterexample: with configured decay `1.0`, at `batchesSeen = 0` the
effective decay is `1/10`, so a shadow `[0]` against parameters `[1]`
moves to `[9/10] ≠ [0]`. -/
theorem ma_idempotence_counterexample :
    updateMovingAverage 1 [0] [1] 0 ≠ [0] := by
  simp only [updateMovingAverage, emaDecay]
  norm_num

/-- C5 amended: with configured decay `1.0` the warm-up caps the effective
decay at `(b+1)/(b+10) < 1`, so one moving-average update leaves the shadow
shard unchanged if and only if the shadow already equals the live shard. -/
theorem ma_idempotence_amended (avg p : List ℚ) (b : ℕ) (h : avg.length = p.length) :
    updateMovingAverage 1 avg p b = avg ↔ avg = p := by
  unfold updateMovingAverage
  rw [emaDecay_one b]
  exact zipWith_decay_fixed _ (ne_of_lt (warmup_lt_one b)) avg p h

/-- C5 witness. -/
theorem ma_idempotence_witness : updateMovingAverage 1 [2] [2] 3 = [2] :=
  (ma_idempotence_amended [2] [2] 3 rfl).mpr rfl

/-- C6.  The moving-average update uses effective decay
`min(configuredDecay, (b+1)/(b+10))` in `shadow = decay*shadow +
(1-decay)*param`; at `b = 0` the effective decay is
`min(configuredDecay, 1/10)`; it is non-decreasing in `b`; and (for a decay
configured at most 1) it converges to the configured decay. -/
theorem decay_warmup (c : ℚ) :
    (∀ (avg p : List ℚ) (b : ℕ), updateMovingAverage c avg p b
      = List.zipWith (fun a q => emaDecay c b * a + (1 - emaDecay c b) * q) avg p) ∧
    emaDecay c 0 = min c (1 / 10) ∧
    (∀ b b' : ℕ, b ≤ b' → emaDecay c b ≤ emaDecay c b') ∧
    (c ≤ 1 → ∀ ε : ℚ, 0 < ε → ∃ B : ℕ, ∀ b : ℕ, B ≤ b → c - emaDecay c b < ε) := by
  refine ⟨fun avg p b => rfl, ?_, emaDecay_mono c, emaDecay_limit c⟩
  unfold emaDecay
  norm_num

/-- C6 witness at `c = 1/2`. -/
theorem decay_warmup_witness :
    emaDecay (1/2) 0 = min (1/2) (1/10) ∧
    emaDecay (1/2) 2 ≤ emaDecay (1/2) 7 ∧
    (∃ B : ℕ, ∀ b : ℕ, B ≤ b → (1/2 : ℚ) - emaDecay (1/2) b < 1/4) :=
  ⟨(decay_warmup (1/2)).2.1, (decay_warmup (1/2)).2.2.1 2 7 (by norm_num),
    (decay_warmup (1/2)).2.2.2 (by norm_num) (1/4) (by norm_num)⟩

theorem getD_range (n m : ℕ) (h : m < n) : (List.range n).getD m 0 = m := by
  rw [List.getD_eq_getElem?_getD, List.getElem?_range h]
  rfl

theorem totalLen_flatten (ps : List (List ℚ)) : ps.flatten.length = totalLen ps := by
  simp [totalLen]

theorem all_length_eq {T : ℕ} (l : List (List ℚ))
    (h : l.all (fun b => decide (b.length = T)) = true) :
    ∀ b ∈ l, b.length = T := by
  intro b hb
  exact of_decide_eq_true (List.all_eq_true.mp h b hb)

theorem sum_map_ite_filter (l : List ℕ) (f : ℕ → ℚ) (P : ℕ → Prop) [DecidablePred P] :
    (l.map (fun i => if P i then f i else 0)).sum
      = ((l.filter (fun i => decide (P i))).map f).sum := by
  induction l with
  | nil => rfl
  | cons a l ih =>
    simp only [List.map_cons, List.sum_cons, List.filter_cons]
    by_cases h : P a
    · simp [h, ih]
    · simp [h, ih]

/-- C1.  After the reduction phase (whose last step per shard is the
broadcast) completes on a state whose replica buffers all span the full
parameter vector, all replicas' flat parameter buffers are identical; and
immediately after the first-step lazy initialization (which copies replica
0's parameters to every other replica) they are identical as well. -/
theorem replica_convergence (cfg : Config) (sched : Option Sched) (inp : StepIn)
    (g g' g0 : Group)
    (hopt : ∀ i p q, (inp.opt i p q).length = p.length)
    (hg : g.graphsParams.length = cfg.N)
    (hp : g.params.length = cfg.N)
    (hlen : g.graphsParams.all (fun b => decide (b.length = totalLen g.params)) = true)
    (hred : reducePhase cfg sched inp g = some g')
    (h0 : g0.first = true) :
    (∀ r1, r1 < cfg.N → ∀ r2, r2 < cfg.N →
      g'.graphsParams.getD r1 [] = g'.graphsParams.getD r2 []) ∧
    (∀ r1, r1 < cfg.N → ∀ r2, r2 < cfg.N →
      (initFirst cfg inp g0).graphsParams.getD r1 []
        = (initFirst cfg inp g0).graphsParams.getD r2 []) := by
  have hlen' : ∀ b ∈ g.graphsParams, b.length = totalLen g.params := all_length_eq _ hlen
  constructor
  · obtain ⟨-, vals, hvals, hgp⟩ :=
      reduceFrom_spec cfg sched inp hopt cfg.N 0 0 g g' hred
    have htot : totalLen vals = totalLen g.params := by
      rw [hvals]
      have hmap : ((List.range cfg.N).map (fun j => (g.params.getD (0 + j) []).length))
          = ((List.range g.params.length).map (fun j => (g.params.getD j []).length)) := by
        rw [hp]
        apply map_ext_mem
        intro j _
        simp
      rw [hmap, sum_range_getD_length]
    have hval : ∀ r, r < cfg.N → g'.graphsParams.getD r [] = vals.flatten := by
      intro r hr
      rw [hgp, getD_map _ _ r (by omega) [] []]
      exact writeSeq_flatten vals _
        (by rw [hlen' _ (getD_mem' _ r (by omega) [])]; exact htot.symm)
    intro r1 hr1 r2 hr2
    rw [hval r1 hr1, hval r2 hr2]
  · have hinit : (initFirst cfg inp g0).graphsParams
        = (List.range cfg.N).map
            (fun i => if i = 0 then inp.buildParams i else inp.buildParams 0) := by
      simp only [initFirst, h0, if_true]
      split_ifs <;> rfl
    have hval0 : ∀ r, r < cfg.N →
        (initFirst cfg inp g0).graphsParams.getD r [] = inp.buildParams 0 := by
      intro r hr
      rw [hinit, getD_map _ _ r (by simpa using hr) [] 0, getD_range cfg.N r hr]
      by_cases hr0 : r = 0
      · rw [if_pos hr0, hr0]
      · rw [if_neg hr0]
    intro r1 hr1 r2 hr2
    rw [hval0 r1 hr1, hval0 r2 hr2]

/-- C1 witness: 2 devices, 3 parameters, replicas out of sync beforehand. -/
theorem replica_convergence_witness :
    gW1r.graphsParams.getD 0 [] = gW1r.graphsParams.getD 1 [] ∧
    (initFirst cfgW1 inpW1 gW0).graphsParams.getD 0 []
      = (initFirst cfgW1 inpW1 gW0).graphsParams.getD 1 [] := by
  have h := replica_convergence cfgW1 none inpW1 gW1 gW1r gW0
    (fun _ _ _ => rfl) (by decide) (by decide) (by decide) rfl rfl
  exact ⟨h.1 0 (by decide) 1 (by decide), h.2 0 (by decide) 1 (by decide)⟩

/-- C4 counterexample: 2 devices, sub-batch sizes `[1, 0]`, each non-empty
replica's cost is 3.  The code reports `(3 + 0) / 2 = 3/2`, not the mean
`3` over the single non-empty replica. -/
theorem cost_mean_counterexample :
    (execute cfg4x (some sched4x) inp4x g4x).map (fun x => x.2)
      ≠ some ((((List.range cfg4x.N).filter
            (fun i => decide (0 < inp4x.batchSizes.getD i 0))).map inp4x.bwCost).sum
          / ((((List.range cfg4x.N).filter
            (fun i => decide (0 < inp4x.batchSizes.getD i 0))).length : ℕ) : ℚ)) := by
  have h1 : (execute cfg4x (some sched4x) inp4x g4x).map (fun x => x.2)
      = some ((((List.range cfg4x.N).map
          (fun i => if 0 < inp4x.batchSizes.getD i 0 then inp4x.bwCost i else 0)).sum)
        / ((((List.range cfg4x.N).map
          (fun i => if 0 < inp4x.batchSizes.getD i 0 then inp4x.bwCost i else 0)).length : ℕ) : ℚ)) := rfl
  rw [h1]
  intro hc
  have h2 := Option.some.inj hc
  have hrange : List.range cfg4x.N = [0, 1] := rfl
  rw [hrange] at h2
  norm_num [inp4x] at h2

/-- C4 amended: the scalar cost reported to the scheduler is the sum of the
costs of the replicas whose sub-batch was non-empty, divided by the total
device count `N` (empty slots contribute a zero to the average). -/
theorem cost_mean_over_slots (cfg : Config) (sched : Option Sched) (inp : StepIn)
    (g : Group) (pr : Group × ℚ)
    (hex : execute cfg sched inp g = some pr) :
    pr.2 = (((List.range cfg.N).filter
          (fun i => decide (0 < inp.batchSizes.getD i 0))).map inp.bwCost).sum
        / (cfg.N : ℚ) := by
  have hcost : pr.2 = ((computePhase cfg inp (initFirst cfg inp g)).2).sum
      / (((computePhase cfg inp (initFirst cfg inp g)).2).length : ℚ) := by
    unfold execute at hex
    cases sched with
    | none =>
      dsimp only at hex
      split at hex
      · simp at hex
      · simp only [Option.some.injEq] at hex
        rw [← hex]
    | some s =>
      dsimp only at hex
      split at hex
      · simp at hex
      · simp only [Option.some.injEq] at hex
        rw [← hex]
  rw [hcost]
  simp only [computePhase]
  rw [List.length_map, List.length_range,
    sum_map_ite_filter (List.range cfg.N) inp.bwCost
      (fun i => 0 < inp.batchSizes.getD i 0)]

/-- C4 witness: 3 devices, sub-batch sizes `[1, 1, 0]`. -/
theorem cost_mean_witness :
    pairW4.2 = (((List.range cfgW4.N).filter
          (fun i => decide (0 < inpW4.batchSizes.getD i 0))).map inpW4.bwCost).sum
        / (cfgW4.N : ℚ) :=
  cost_mean_over_slots cfgW4 none inpW4 gW4 pairW4 rfl

/-- C7.  With moving averaging enabled, the validation branch fetches the
shadow shards into the primary replica, validates, then fetches the live
shards back: once it returns, the primary replica's buffer equals its
pre-validation contents (the concatenation of the live shards), and no
shard state (`params_`, `grads_`, `paramsAvg_`) is modified. -/
theorem validation_isolation (cfg : Config) (inp : StepIn) (g : Group)
    (hma : cfg.movingAvg = true)
    (hok : shardSizesOK g.shardSize (totalLen g.params) g.params = true)
    (hokAvg : shardSizesOK g.shardSize (totalLen g.params) g.paramsAvg = true)
    (hjoin : g.graphsParams.getD 0 [] = g.params.flatten)
    (hg0 : 0 < g.graphsParams.length)
    (hEff : ∀ x : List ℚ, (inp.validateEff x).length = x.length) :
    (validateBranch cfg inp g).graphsParams.getD 0 [] = g.graphsParams.getD 0 [] ∧
    (validateBranch cfg inp g).params = g.params ∧
    (validateBranch cfg inp g).grads = g.grads ∧
    (validateBranch cfg inp g).paramsAvg = g.paramsAvg := by
  have hb0 : (g.graphsParams.getD 0 []).length = totalLen g.params := by
    rw [hjoin, totalLen_flatten]
  have havgT : totalLen g.paramsAvg = totalLen g.params :=
    shardSizesOK_total _ _ _ hokAvg
  have hb1 : fetchParams g.shardSize (g.graphsParams.getD 0 []) g.paramsAvg
      = g.paramsAvg.flatten :=
    fetchParams_flatten _ _ _ _ hokAvg hb0
  have hb2len : (inp.validateEff g.paramsAvg.flatten).length = totalLen g.params := by
    rw [hEff, totalLen_flatten, havgT]
  have hb3 : fetchParams g.shardSize (inp.validateEff g.paramsAvg.flatten) g.params
      = g.params.flatten :=
    fetchParams_flatten _ _ _ _ hok hb2len
  refine ⟨?_, rfl, rfl, rfl⟩
  simp only [validateBranch, hma, if_true]
  rw [hb1, hb3, getD_set_self _ _ _ _ hg0, hjoin]

/-- C7 witness: live shards `[[1,2],[3]]`, shadow `[[4,5],[6]]`. -/
theorem validation_isolation_witness :
    (validateBranch cfgW7 inpW7 gW7).graphsParams.getD 0 [] = gW7.graphsParams.getD 0 [] ∧
    (validateBranch cfgW7 inpW7 gW7).params = gW7.params ∧
    (validateBranch cfgW7 inpW7 gW7).grads = gW7.grads ∧
    (validateBranch cfgW7 inpW7 gW7).paramsAvg = gW7.paramsAvg :=
  validation_isolation cfgW7 inpW7 gW7 rfl (by decide) (by decide) rfl (by decide)
    (fun _ => rfl)

/-- C8 counterexample: moving averaging on, live parameters `[1]`, shadow
`[5]`: the value persisted at the model path is the shadow `[5]`, not the
replica's live parameters `[1]`. -/
theorem save_counterexample :
    (saveModel cfg8x none g8x true).files = [(cfg8x.modelPath, [(5:ℚ)])] ∧
    g8x.graphsParams.getD 0 [] = [(1:ℚ)] ∧ ([(5:ℚ)] : List ℚ) ≠ [(1:ℚ)] := by
  refine ⟨rfl, rfl, ?_⟩
  norm_num

/-- C8 amended: a save persists, at the model path, the primary replica's
live parameters when moving averaging is off and the moving-average shadow
when it is on (restoring the live shards into the replica afterwards); it
persists scheduler state exactly when a scheduler is set; and when
overwrite-mode is off and the save is not final it additionally persists a
snapshot whose name splices `.iter<batches>.npz` over the model path's
4-character extension. -/
theorem save_persists_shadow (cfg : Config) (sched : Option Sched) (g : Group) (final : Bool)
    (hok : shardSizesOK g.shardSize (totalLen g.params) g.params = true)
    (hokAvg : shardSizesOK g.shardSize (totalLen g.params) g.paramsAvg = true)
    (hb : (g.graphsParams.getD 0 []).length = totalLen g.params)
    (hg0 : 0 < g.graphsParams.length) :
    (saveModel cfg sched g final).files
      = (if cfg.overwrite = false ∧ final = false then
          [(iterName cfg.modelPath (match sched with
              | some s => toString s.numberOfBatches
              | none => "unknown"),
            if cfg.movingAvg then g.paramsAvg.flatten else g.graphsParams.getD 0 [])]
        else [])
        ++ [(cfg.modelPath,
            if cfg.movingAvg then g.paramsAvg.flatten else g.graphsParams.getD 0 [])] ∧
    (saveModel cfg sched g final).schedSaved
      = (match sched with | some _ => some cfg.modelPath | none => none) ∧
    (saveModel cfg sched g final).group.graphsParams.getD 0 []
      = (if cfg.movingAvg then g.params.flatten else g.graphsParams.getD 0 []) ∧
    (saveModel cfg sched g final).group.params = g.params ∧
    (saveModel cfg sched g final).group.grads = g.grads ∧
    (saveModel cfg sched g final).group.paramsAvg = g.paramsAvg := by
  have havgT : totalLen g.paramsAvg = totalLen g.params :=
    shardSizesOK_total _ _ _ hokAvg
  by_cases hma : cfg.movingAvg
  · have hts : fetchParams g.shardSize (g.graphsParams.getD 0 []) g.paramsAvg
        = g.paramsAvg.flatten :=
      fetchParams_flatten _ _ _ _ hokAvg hb
    have hrest : fetchParams g.shardSize g.paramsAvg.flatten g.params
        = g.params.flatten :=
      fetchParams_flatten _ _ _ _ hok (by rw [totalLen_flatten, havgT])
    refine ⟨?_, rfl, ?_, rfl, rfl, rfl⟩
    · simp only [saveModel, hma, if_true, hts]
      by_cases hov : cfg.overwrite <;> by_cases hfin : final <;> simp [hov, hfin]
    · simp only [saveModel, hma, if_true, hts, hrest]
      rw [getD_set_self _ _ _ _ hg0]
  · have hma' : cfg.movingAvg = false := by
      cases hcm : cfg.movingAvg
      · rfl
      · exact absurd hcm hma
    refine ⟨?_, rfl, ?_, rfl, rfl, rfl⟩
    · simp only [saveModel, hma', Bool.false_eq_true, if_false]
      by_cases hov : cfg.overwrite <;> by_cases hfin : final <;> simp [hov, hfin]
    · simp only [saveModel, hma', Bool.false_eq_true, if_false]
      rw [getD_set_self _ _ _ _ hg0]

/-- C8 witness: moving averaging on, overwrite-mode off, non-final save at
batch count 5. -/
theorem save_persists_witness :
    (saveModel cfgW8 (some schedW8) gW8 false).files
      = (if cfgW8.overwrite = false ∧ false = false then
          [(iterName cfgW8.modelPath (match (some schedW8 : Option Sched) with
              | some s => toString s.numberOfBatches
              | none => "unknown"),
            if cfgW8.movingAvg then gW8.paramsAvg.flatten else gW8.graphsParams.getD 0 [])]
        else [])
        ++ [(cfgW8.modelPath,
            if cfgW8.movingAvg then gW8.paramsAvg.flatten else gW8.graphsParams.getD 0 [])] ∧
    (saveModel cfgW8 (some schedW8) gW8 false).schedSaved
      = (match (some schedW8 : Option Sched) with
          | some _ => some cfgW8.modelPath | none => none) ∧
    (saveModel cfgW8 (some schedW8) gW8 false).group.graphsParams.getD 0 []
      = (if cfgW8.movingAvg then gW8.params.flatten else gW8.graphsParams.getD 0 []) ∧
    (saveModel cfgW8 (some schedW8) gW8 false).group.params = gW8.params ∧
    (saveModel cfgW8 (some schedW8) gW8 false).group.grads = gW8.grads ∧
    (saveModel cfgW8 (some schedW8) gW8 false).group.paramsAvg = gW8.paramsAvg :=
  save_persists_shadow cfgW8 (some schedW8) gW8 false (by decide) (by decide) (by decide)
    (by decide)

/-- C9.  `load()` is a no-op whenever reload is disabled or no checkpoint
file exists at the model path (a missing file is not an error: the model
returns unchanged); when reload is enabled and the file exists, it restores
scheduler state (if a scheduler is set) and loads the checkpoint into every
replica. -/
theorem load_noop_or_restore (cfg : Config) (fileExists : Bool) (ckpt : List ℚ)
    (schedLoad : Sched → Sched) (sched : Option Sched) (g : Group) :
    ((cfg.noReload = true ∨ fileExists = false) →
      loadModel cfg fileExists ckpt schedLoad sched g = (g, sched)) ∧
    (cfg.noReload = false → fileExists = true →
      loadModel cfg fileExists ckpt schedLoad sched g
        = ({ g with graphsParams := g.graphsParams.map (fun _ => ckpt) },
            match sched with | some s => some (schedLoad s) | none => none)) := by
  constructor
  · rintro (h | h) <;> simp [loadModel, h]
  · intro h1 h2
    simp [loadModel, h1, h2]

/-- C9 witness: `noReload` on (no-op) and `noReload` off with an existing
file (restore into every replica plus scheduler). -/
theorem load_witness :
    loadModel cfgW9a true [4] id (some schedW9) gW9 = (gW9, some schedW9) ∧
    loadModel cfgW9b true [4] id (some schedW9) gW9
      = ({ gW9 with graphsParams := gW9.graphsParams.map (fun _ => [4]) },
          match (some schedW9 : Option Sched) with
          | some s => some (id s) | none => none) :=
  ⟨(load_noop_or_restore cfgW9a true [4] id (some schedW9) gW9).1 (Or.inl rfl),
    (load_noop_or_restore cfgW9b true [4] id (some schedW9) gW9).2 rfl rfl⟩

/-- C10.  With no scheduler set, `update(batch)` completes the full step
(compute, reduction, optimizer update, broadcast) and skips the scheduler
callbacks — but only when moving averaging is off: with moving averaging
on, every shard's reduction task dereferences the null scheduler through
the unguarded `scheduler_->numberOfBatches()` call (modelled as `none`). -/
theorem null_scheduler_moving_average :
    execute c10cfgA none c10inp c10g = none ∧
    (execute c10cfgB none c10inp c10g).isSome = true :=
  ⟨rfl, rfl⟩

end Marian
